import Mathlib

/-
Verification of the CPU-scheduling simulators (FCFS and Priority Non-Preemptive).

The development shallowly embeds the two Python source files:
  - src/FCFS/FCFS.py
  - src/PriorityScheduling/priority_np.py
Python integers are modelled as Int, Python true division as a fallible
operation over the rationals (ZeroDivisionError on a zero denominator),
the module-level global idle_time as an explicit threaded value, pandas
DataFrames as lists of process records carrying their original row labels,
Python dicts (insertion ordered) as association lists, and queue.PriorityQueue
as a container whose get returns the minimum tuple under lexicographic order.
-/

set_option linter.unusedVariables false

deriving instance DecidableEq for Except

attribute [local semireducible] Rat.add Rat.sub Rat.mul Rat.inv

/-- Errors a simulator invocation can surface. zeroDivision embeds Python's
ZeroDivisionError, keyError embeds KeyError raised by del on a missing dict key,
emptyProcessSet is the dedicated error the specification demands for zero
processes, and fuelOut is a modelling artifact of bounding the while-True loop
(shown unreachable with fuel n+1). -/
inductive SimError where
  | zeroDivision
  | keyError
  | emptyProcessSet
  | fuelOut
deriving DecidableEq

/-- Python true division over the rationals: raises ZeroDivisionError on a zero
denominator, otherwise returns the exact quotient. -/
def pyDiv (a b : ℚ) : Except SimError ℚ :=
  if b = 0 then .error .zeroDivision else .ok (a / b)

/-- Left-pad a digit string with zeros up to width w. -/
def padZeros (w : Nat) (s : String) : String :=
  if s.length < w then String.mk (List.replicate (w - s.length) '0') ++ s else s

/-- Embeds Python fixed-precision percent-formatting ("%.4f", "%.2f") over the
rational model of the numeric pipeline: the value is rounded to prec decimal
places and rendered with exactly prec digits after the point. -/
def fmtFixed (prec : Nat) (q : ℚ) : String :=
  let m : Int := round (|q| * (10 : ℚ) ^ prec)
  let sgn := if q < 0 then "-" else ""
  let ip := m.toNat / 10 ^ prec
  let fp := m.toNat % 10 ^ prec
  if prec = 0 then sgn ++ toString ip
  else sgn ++ toString ip ++ "." ++ padZeros prec (toString fp)

/-- Value of a list of decimal digit characters, none if a non-digit occurs. -/
def digitsVal (l : List Char) : Option Nat :=
  l.foldl
    (fun acc c =>
      match acc with
      | none => none
      | some a => if c.isDigit then some (a * 10 + (c.toNat - 48)) else none)
    (some 0)

/-- Decode a plain decimal string back to the exact rational it denotes
(optional leading minus, optional fractional part). Used to express that a
formatted string exposes a numeric value precisely. -/
def decVal (s : String) : Option ℚ :=
  let core := fun (l : List Char) =>
    match l.span (fun c => c != '.') with
    | (ip, []) => if ip.isEmpty then none else (digitsVal ip).map (fun a => (a : ℚ))
    | (ip, _ :: fp) =>
      if fp.isEmpty then none
      else
        match digitsVal ip, digitsVal fp with
        | some a, some b => some ((a : ℚ) + (b : ℚ) / (10 : ℚ) ^ fp.length)
        | _, _ => none
  match s.data with
  | '-' :: rest => (core rest).map (fun q => -q)
  | l => core l

/-- A process record: one row of the input table. priority is meaningful only
for the priority policy (FCFS ignores it). -/
structure Proc where
  process_id : Int
  arrival_time : Int
  burst_time : Int
  priority : Int
deriving DecidableEq

instance : Inhabited Proc := ⟨⟨0, 0, 0, 0⟩⟩

/-- Insert p, which originally precedes every element of the list, after
exactly the elements whose key is strictly smaller, so the resulting sort is
stable. -/
def insertSorted (key : α → Int) (p : α) : List α → List α
  | [] => [p]
  | q :: rest => if key q < key p then q :: insertSorted key p rest else p :: q :: rest

/-- Embeds DataFrame.sort_values on the arrival-time column as a stable
insertion sort by the given key. -/
def sort_values (key : α → Int) : List α → List α
  | [] => []
  | p :: rest => insertSorted key p (sort_values key rest)

theorem insertSorted_perm (key : α → Int) (p : α) (l : List α) :
    (insertSorted key p l).Perm (p :: l) := by
  induction l with
  | nil => simp [insertSorted]
  | cons q rest ih =>
    simp only [insertSorted]
    split
    · exact (ih.cons q).trans (List.Perm.swap p q rest)
    · exact List.Perm.refl _

theorem sort_values_perm (key : α → Int) (l : List α) :
    (sort_values key l).Perm l := by
  induction l with
  | nil => simp [sort_values]
  | cons p rest ih =>
    exact (insertSorted_perm key p (sort_values key rest)).trans (ih.cons p)

namespace FCFS

/-- Inner loop of calculate_waiting_time from src/FCFS/FCFS.py, for indices
i = 1..n-1. The first argument carries service_time[i] (the candidate start of
the process at the head of the lists), computed from the recurrence
service_time[i] = service_time[i-1] + burst_t[i-1]; the second carries the
running value of the module-level global idle_time. -/
def waitLoop : Int → Int → List Int → List Int → List Int × Int
  | _, idle, [], _ => ([], idle)
  | _, idle, _, [] => ([], idle)
  | service, idle, b :: bs, a :: as =>
    let w := service - a
    let wi := if w < 0 then 0 else w
    let idle2 := if w < 0 then idle + (-w) else idle
    let r := waitLoop (service + b) idle2 bs as
    (wi :: r.1, r.2)

/-- Embeds calculate_waiting_time from src/FCFS/FCFS.py. service_time[0] is 0,
waiting_t[0] keeps its caller-initialized value 0, and the loop runs from index
1. idle0 is the incoming value of the module-level global idle_time, which the
function only ever increments; the second component of the result is the new
value of that global. -/
def calculate_waiting_time (burst_t arrival_t : List Int) (idle0 : Int) :
    List Int × Int :=
  match burst_t, arrival_t with
  | [], _ => ([], idle0)
  | _, [] => ([], idle0)
  | b0 :: bs, _ :: as =>
    let r := waitLoop b0 idle0 bs as
    (0 :: r.1, r.2)

/-- Embeds calculate_turnaround_time from src/FCFS/FCFS.py:
turn_around_t[i] = burst_t[i] + waiting_t[i]. -/
def calculate_turnaround_time (burst_t waiting_t : List Int) : List Int :=
  List.zipWith (fun b w => b + w) burst_t waiting_t

/-- Modelled from the spec, for comparison with calculate_waiting_time (claim
C1 wording): the running CPU-free-at value starts at the first process's
arrival; the candidate start of each later process is the previous process's
actual start plus its burst; a negative wait is clamped to 0, its magnitude is
added to idle time, and the process then actually starts at its arrival. -/
def specWalkLoop : Int → Int → List Int → List Int → List Int × Int
  | _, idle, [], _ => ([], idle)
  | _, idle, _, [] => ([], idle)
  | free, idle, b :: bs, a :: as =>
    let w := free - a
    let start := if w < 0 then a else free
    let wi := if w < 0 then 0 else w
    let idle2 := if w < 0 then idle + (-w) else idle
    let r := specWalkLoop (start + b) idle2 bs as
    (wi :: r.1, r.2)

/-- Modelled from the spec (claim C1): the whole walk, first process starting
at its own arrival with waiting time 0 and idle time 0. -/
def specFcfsWaiting (burst_t arrival_t : List Int) : List Int × Int :=
  match burst_t, arrival_t with
  | [], _ => ([], 0)
  | _, [] => ([], 0)
  | b0 :: bs, a0 :: as =>
    let r := specWalkLoop (a0 + b0) 0 bs as
    (0 :: r.1, r.2)

/-- The structured outcome of one FCFS invocation: the per-process arrays in
sorted order, the new value of the global idle_time, the numeric metrics the
function computes, and the string dictionary it returns. -/
structure FOut where
  waiting : List Int
  tat : List Int
  idleOut : Int
  n : Nat
  cpu_util : ℚ
  throughput : ℚ
  awt : ℚ
  att : ℚ
  art : ℚ
  result : List (String × String)
deriving DecidableEq

/-- Embeds simulate_fcfs_algorithm from src/FCFS/FCFS.py. idle0 is the incoming
value of the module-level global idle_time (the function never resets it), and
u embeds the externally supplied get_cpu_time_unit() factor. Divisions happen
in source order via pyDiv. -/
def simulate_fcfs_algorithm (data : List Proc) (idle0 : Int) (u : ℚ) :
    Except SimError FOut :=
  let sorted := sort_values (fun p => p.arrival_time) data
  let n := sorted.length
  let burst_time := sorted.map (fun p => p.burst_time)
  let arrival_time := sorted.map (fun p => p.arrival_time)
  let wr := calculate_waiting_time burst_time arrival_time idle0
  let waiting_t := wr.1
  let idle1 := wr.2
  let turn_around_t := calculate_turnaround_time burst_time waiting_t
  let total_waiting_t := waiting_t.sum
  let total_turn_around_t := turn_around_t.sum
  let total_burst_t := burst_time.sum
  match pyDiv (total_burst_t : ℚ) ((total_burst_t : ℚ) + (idle1 : ℚ)) with
  | .error e => .error e
  | .ok cpu_utilization =>
    match pyDiv (n : ℚ) (((total_burst_t : ℚ) + (idle1 : ℚ)) * u) with
    | .error e => .error e
    | .ok throughput =>
      match pyDiv ((total_waiting_t : ℚ) * u) (n : ℚ) with
      | .error e => .error e
      | .ok average_waiting_time =>
        match pyDiv ((total_turn_around_t : ℚ) * u) (n : ℚ) with
        | .error e => .error e
        | .ok average_turnaround_time =>
          .ok
            { waiting := waiting_t
              tat := turn_around_t
              idleOut := idle1
              n := n
              cpu_util := cpu_utilization
              throughput := throughput
              awt := average_waiting_time
              att := average_turnaround_time
              art := average_waiting_time
              result :=
                [("n", toString n),
                 ("throughput", fmtFixed 4 throughput),
                 ("cpu_util", fmtFixed 2 cpu_utilization),
                 ("awt", fmtFixed 4 average_waiting_time),
                 ("att", fmtFixed 4 average_turnaround_time),
                 ("art", fmtFixed 4 average_waiting_time)] }

end FCFS

namespace PriorityNP

/-- The tuple put into the ready queue by insert_ready_queue in
src/PriorityScheduling/priority_np.py: (priority, burst_time, arrival_time,
process_id), compared lexicographically by queue.PriorityQueue. -/
structure PKey where
  priority : Int
  burst_time : Int
  arrival_time : Int
  process_id : Int
deriving DecidableEq

/-- The ready-queue tuple built from a process record. -/
def keyOf (p : Proc) : PKey :=
  ⟨p.priority, p.burst_time, p.arrival_time, p.process_id⟩

/-- Strict lexicographic order on ready-queue tuples, embedding Python tuple
comparison as used by PriorityQueue. -/
def keyLt (a b : PKey) : Prop :=
  a.priority < b.priority ∨
    (a.priority = b.priority ∧
      (a.burst_time < b.burst_time ∨
        (a.burst_time = b.burst_time ∧
          (a.arrival_time < b.arrival_time ∨
            (a.arrival_time = b.arrival_time ∧ a.process_id < b.process_id)))))

instance (a b : PKey) : Decidable (keyLt a b) := by
  unfold keyLt; infer_instance

/-- Reflexive closure of keyLt: a is at most b in the composite ordering key
(priority, burst_time, arrival_time, process_id). -/
def keyLe (a b : PKey) : Prop := keyLt a b ∨ a = b

instance (a b : PKey) : Decidable (keyLe a b) := by
  unfold keyLe; infer_instance

/-- The minimum of a nonempty collection under keyLt, as maintained by the
binary heap inside queue.PriorityQueue. -/
def findMin : PKey → List PKey → PKey
  | m, [] => m
  | m, x :: xs => if keyLt x m then findMin x xs else findMin m xs

/-- PriorityQueue.get: remove and return the minimum tuple; none when empty. -/
def popMin : List PKey → Option (PKey × List PKey)
  | [] => none
  | x :: xs =>
    let m := findMin x xs
    some (m, (x :: xs).erase m)

/-- Embeds insert_ready_queue from src/PriorityScheduling/priority_np.py: walk
the pending dict in order and put every process whose arrival time lies in the
window (last_start_time, current_time] into the ready queue. The pending dict
entries carry their original DataFrame row label as the key. -/
def insert_ready_queue (ready_queue : List PKey) (normal_queue : List (Int × Proc))
    (current_time last_start_time : Int) : List PKey :=
  match normal_queue with
  | [] => ready_queue
  | kp :: rest =>
    let r2 :=
      if last_start_time < kp.2.arrival_time ∧ kp.2.arrival_time ≤ current_time
      then ready_queue ++ [keyOf kp.2]
      else ready_queue
    insert_ready_queue r2 rest current_time last_start_time

/-- Embeds del normal_queue[k]: none (KeyError) when the key is absent,
otherwise the dict without that entry. -/
def removeKey (l : List (Int × Proc)) (k : Int) : Option (List (Int × Proc)) :=
  if l.any (fun kp => kp.1 == k) then some (l.filter (fun kp => kp.1 != k)) else none

/-- Embeds process_data.at[k, et-column] = v: overwrite or create the cell for
row label k. -/
def setEt (et : List (Int × Int)) (k v : Int) : List (Int × Int) :=
  et.filter (fun kv => kv.1 != k) ++ [(k, v)]

/-- The mutable state of the scheduling loop in simulate_priority_np_algorithm:
the clock, the last decision point, the global idle accumulator (reset to 0 at
the start of the run), the pending dict, the ready queue, and the et cells
written so far (every row's et column starts at 0, so an unwritten row reads 0). -/
structure SimState where
  current_time : Int
  last_start_time : Int
  idle_time : Int
  normal_queue : List (Int × Proc)
  ready_queue : List PKey
  et : List (Int × Int)
deriving DecidableEq

/-- One iteration of the while-True loop of simulate_priority_np_algorithm:
admission, then either execute the minimum ready process, execute the first
pending process (accumulating idle time if the CPU must wait for it), or
terminate when both containers are empty. -/
def stepPr (s : SimState) : Except SimError (SimState ⊕ (List (Int × Int) × Int)) :=
  let ready1 := insert_ready_queue s.ready_queue s.normal_queue s.current_time s.last_start_time
  match popMin ready1 with
  | some (process, rest) =>
    let last' := s.current_time
    let current' := s.current_time + process.burst_time
    let k := process.process_id - 1
    match removeKey s.normal_queue k with
    | none => .error .keyError
    | some normal' =>
      .ok (.inl
        { current_time := current'
          last_start_time := last'
          idle_time := s.idle_time
          normal_queue := normal'
          ready_queue := rest
          et := setEt s.et k current' })
  | none =>
    match s.normal_queue with
    | [] => .ok (.inr (s.et, s.idle_time))
    | (fk, fp) :: _ =>
      let idle' :=
        if s.current_time < fp.arrival_time
        then s.idle_time + (fp.arrival_time - s.current_time)
        else s.idle_time
      let cur' :=
        if s.current_time < fp.arrival_time then fp.arrival_time else s.current_time
      let last' := cur'
      let current' := cur' + fp.burst_time
      let k := fp.process_id - 1
      match removeKey s.normal_queue k with
      | none => .error .keyError
      | some normal' =>
        .ok (.inl
          { current_time := current'
            last_start_time := last'
            idle_time := idle'
            normal_queue := normal'
            ready_queue := ready1
            et := setEt s.et k current' })

/-- Run the loop with a step budget; fuel n+1 is shown to always suffice. -/
def runPr : Nat → SimState → Except SimError (List (Int × Int) × Int)
  | 0, _ => .error .fuelOut
  | fuel + 1, s =>
    match stepPr s with
    | .error e => .error e
    | .ok (.inr r) => .ok r
    | .ok (.inl s') => runPr fuel s'

/-- Embeds DataFrame.to_dict(orient="index") on the arrival-sorted frame: an
insertion-ordered dict keyed by the original row labels, which for a default
RangeIndex are 0, 1, 2, ... in input order. -/
def enumFrom (i : Int) : List Proc → List (Int × Proc)
  | [] => []
  | p :: rest => (i, p) :: enumFrom (i + 1) rest

/-- The rows of the input table with their original labels attached. -/
def to_dict (d : List Proc) : List (Int × Proc) := enumFrom 0 d

/-- The initial loop state: clock 0, last decision point -1, idle accumulator
reset to 0, pending dict the arrival-sorted labelled rows, empty ready queue,
no et cell written yet. -/
def initState (d : List Proc) : SimState :=
  { current_time := 0
    last_start_time := -1
    idle_time := 0
    normal_queue := sort_values (fun kp => kp.2.arrival_time) (to_dict d)
    ready_queue := []
    et := [] }

/-- The et cell of row label k after the run (the column is initialized to 0). -/
def etCell (et : List (Int × Int)) (k : Int) : Int :=
  (et.lookup k).getD 0

/-- The structured outcome of one priority invocation: the raw et cells and the
run's idle time, the per-row turnaround and waiting times read back in label
order 0..n-1, the numeric metrics, and the string dictionary print_data returns. -/
structure POut where
  et : List (Int × Int)
  idleOut : Int
  tat : List Int
  waiting : List Int
  n : Nat
  att : ℚ
  awt : ℚ
  cpu_util : ℚ
  throughput : ℚ
  result : List (String × String)
deriving DecidableEq

/-- Embeds simulate_priority_np_algorithm together with its helpers
calculate_turnaround_time, calculate_waiting_time and print_data from
src/PriorityScheduling/priority_np.py. u embeds get_cpu_time_unit().
The scheduling loop is run with fuel n+1; afterwards the helpers read rows by
labels 0..n-1 (tat[i] = et[i] - arrival[i], waiting[i] = tat[i] - burst[i])
and print_data computes the aggregate metrics, with every division through
pyDiv in source order. -/
def simulate_priority_np_algorithm (d : List Proc) (u : ℚ) : Except SimError POut :=
  let n := d.length
  match runPr (n + 1) (initState d) with
  | .error e => .error e
  | .ok (etF, idleF) =>
    let tat := (List.range n).map
      (fun i => etCell etF (Int.ofNat i) - (d.getD i default).arrival_time)
    let waiting := (List.range n).map
      (fun i => (tat.getD i 0) - (d.getD i default).burst_time)
    let total_turnaround_time := tat.sum
    let total_waiting_time := waiting.sum
    match pyDiv ((total_turnaround_time : ℚ) * u) (n : ℚ) with
    | .error e => .error e
    | .ok average_turnaround_time =>
      match pyDiv ((total_waiting_time : ℚ) * u) (n : ℚ) with
      | .error e => .error e
      | .ok average_waiting_time =>
        let total_burst_t : Int := (d.map (fun p => p.burst_time)).sum
        match pyDiv (total_burst_t : ℚ) ((total_burst_t : ℚ) + (idleF : ℚ)) with
        | .error e => .error e
        | .ok cpu_utilization =>
          match pyDiv (n : ℚ) (((total_burst_t : ℚ) + (idleF : ℚ)) * u) with
          | .error e => .error e
          | .ok throughput =>
            .ok
              { et := etF
                idleOut := idleF
                tat := tat
                waiting := waiting
                n := n
                att := average_turnaround_time
                awt := average_waiting_time
                cpu_util := cpu_utilization
                throughput := throughput
                result :=
                  [("n", toString n),
                   ("throughput", fmtFixed 4 throughput),
                   ("cpu_util", fmtFixed 2 cpu_utilization),
                   ("awt", fmtFixed 4 average_waiting_time),
                   ("att", fmtFixed 4 average_turnaround_time),
                   ("art", fmtFixed 4 average_waiting_time)] }

end PriorityNP

namespace PriorityNP

theorem keyLe_refl (a : PKey) : keyLe a a := Or.inr rfl

theorem keyLt_trans {a b c : PKey} (h1 : keyLt a b) (h2 : keyLt b c) : keyLt a c := by
  unfold keyLt at h1 h2 ⊢
  rcases a with ⟨a1, a2, a3, a4⟩
  rcases b with ⟨b1, b2, b3, b4⟩
  rcases c with ⟨c1, c2, c3, c4⟩
  simp only at h1 h2 ⊢
  omega

theorem keyLt_total (a b : PKey) : keyLt a b ∨ keyLt b a ∨ a = b := by
  rcases a with ⟨a1, a2, a3, a4⟩
  rcases b with ⟨b1, b2, b3, b4⟩
  unfold keyLt
  simp only [PKey.mk.injEq]
  omega

theorem keyLe_trans {a b c : PKey} (h1 : keyLe a b) (h2 : keyLe b c) : keyLe a c := by
  rcases h1 with h1 | rfl
  · rcases h2 with h2 | rfl
    · exact Or.inl (keyLt_trans h1 h2)
    · exact Or.inl h1
  · exact h2

theorem not_keyLt_imp_le {a b : PKey} (h : ¬ keyLt a b) : keyLe b a := by
  rcases keyLt_total a b with h1 | h1 | rfl
  · exact absurd h1 h
  · exact Or.inl h1
  · exact keyLe_refl _

theorem findMin_mem (m : PKey) (xs : List PKey) : findMin m xs ∈ m :: xs := by
  induction xs generalizing m with
  | nil => simp [findMin]
  | cons x rest ih =>
    simp only [findMin]
    split
    · have := ih x
      rcases List.mem_cons.mp this with h | h
      · simp [h]
      · simp [List.mem_cons, h]
    · have := ih m
      rcases List.mem_cons.mp this with h | h
      · simp [h]
      · simp [List.mem_cons, h]

theorem findMin_le (m : PKey) (xs : List PKey) :
    ∀ y ∈ m :: xs, keyLe (findMin m xs) y := by
  induction xs generalizing m with
  | nil =>
    intro y hy
    rcases List.mem_cons.mp hy with rfl | h
    · simp [findMin, keyLe_refl]
    · simp at h
  | cons x rest ih =>
    intro y hy
    simp only [findMin]
    split
    · rename_i hlt
      rcases List.mem_cons.mp hy with rfl | hy2
      · exact keyLe_trans (ih x x (List.mem_cons_self x rest)) (Or.inl hlt)
      · exact ih x y hy2
    · rename_i hnlt
      rcases List.mem_cons.mp hy with rfl | hy2
      · exact ih y y (List.mem_cons_self y rest)
      · rcases List.mem_cons.mp hy2 with rfl | hy3
        · exact keyLe_trans (ih m m (List.mem_cons_self m rest)) (not_keyLt_imp_le hnlt)
        · exact ih m y (List.mem_cons.mpr (Or.inr hy3))

theorem popMin_spec {l : List PKey} {m : PKey} {rest : List PKey}
    (h : popMin l = some (m, rest)) :
    m ∈ l ∧ rest = l.erase m ∧ ∀ y ∈ l, keyLe m y := by
  match l with
  | [] => simp [popMin] at h
  | x :: xs =>
    simp only [popMin, Option.some.injEq, Prod.mk.injEq] at h
    obtain ⟨rfl, rfl⟩ := h
    exact ⟨findMin_mem x xs, rfl, findMin_le x xs⟩

theorem popMin_perm {l : List PKey} {m : PKey} {rest : List PKey}
    (h : popMin l = some (m, rest)) : l.Perm (m :: rest) := by
  obtain ⟨hm, hrest, _⟩ := popMin_spec h
  subst hrest
  exact List.perm_cons_erase hm

/-- insert_ready_queue appends exactly the keys of the pending entries whose
arrival time lies in the admission window (last_start_time, current_time]. -/
theorem insert_ready_queue_eq_filter (ready : List PKey) (normal : List (Int × Proc))
    (cur last : Int) :
    insert_ready_queue ready normal cur last =
      ready ++ (normal.filter
        (fun kp => decide (last < kp.2.arrival_time ∧ kp.2.arrival_time ≤ cur))).map
          (fun kp => keyOf kp.2) := by
  induction normal generalizing ready with
  | nil => simp [insert_ready_queue]
  | cons kp rest ih =>
    simp only [insert_ready_queue, List.filter_cons]
    split
    · rename_i hcond
      rw [ih]
      simp [hcond, List.append_assoc]
    · rename_i hcond
      rw [ih]
      simp [hcond]

theorem removeKey_eq_some {l : List (Int × Proc)} {k : Int} {l' : List (Int × Proc)}
    (h : removeKey l k = some l') : l' = l.filter (fun kp => kp.1 != k) := by
  unfold removeKey at h
  split at h
  · exact (Option.some.injEq _ _ ▸ h).symm
  · simp at h

theorem removeKey_isSome_of_mem {l : List (Int × Proc)} {k : Int}
    (h : k ∈ l.map Prod.fst) :
    removeKey l k = some (l.filter (fun kp => kp.1 != k)) := by
  unfold removeKey
  rw [if_pos]
  rcases List.mem_map.mp h with ⟨kp, hkp, rfl⟩
  exact List.any_eq_true.mpr ⟨kp, hkp, by simp⟩

end PriorityNP

/-- Completion time of the process at sorted position i: its arrival plus its
turnaround time. -/
def completionOf (arrival tat : List Int) (i : Nat) : Int :=
  arrival.getD i 0 + tat.getD i 0

/-- Start time of the process at sorted position i: its completion minus its
burst. -/
def startOf (arrival tat burst : List Int) (i : Nat) : Int :=
  completionOf arrival tat i - burst.getD i 0

/-- Two half-open execution intervals overlap. -/
def overlapping (s1 e1 s2 e2 : Int) : Prop := s1 < e2 ∧ s2 < e1

instance (s1 e1 s2 e2 : Int) : Decidable (overlapping s1 e1 s2 e2) := by
  unfold overlapping; infer_instance

theorem pyDiv_ok {a b c : ℚ} (h : pyDiv a b = .ok c) : b ≠ 0 ∧ c = a / b := by
  unfold pyDiv at h
  split at h
  · exact absurd h (by simp)
  · rename_i hb
    refine ⟨hb, ?_⟩
    injection h with h
    exact h.symm

namespace FCFS

/-- The arrival-sorted process list of an FCFS run. -/
def sortedOf (d : List Proc) : List Proc := sort_values (fun p => p.arrival_time) d

/-- Burst times in sorted order. -/
def burstOf (d : List Proc) : List Int := (sortedOf d).map (fun p => p.burst_time)

/-- Arrival times in sorted order. -/
def arrivalOf (d : List Proc) : List Int := (sortedOf d).map (fun p => p.arrival_time)

/-- The waiting-time list an FCFS run computes. -/
def waitingOf (d : List Proc) (idle0 : Int) : List Int :=
  (calculate_waiting_time (burstOf d) (arrivalOf d) idle0).1

/-- The value of the global idle_time after an FCFS run. -/
def idleOf (d : List Proc) (idle0 : Int) : Int :=
  (calculate_waiting_time (burstOf d) (arrivalOf d) idle0).2

/-- The turnaround-time list an FCFS run computes. -/
def tatOf (d : List Proc) (idle0 : Int) : List Int :=
  calculate_turnaround_time (burstOf d) (waitingOf d idle0)

/-- Total burst time of an FCFS run. -/
def tbOf (d : List Proc) : Int := (burstOf d).sum

/-- Inversion of a successful FCFS run: the denominators the source divides by
are nonzero and every field of the result is the corresponding pipeline value. -/
theorem fcfs_ok_fields {d : List Proc} {idle0 : Int} {u : ℚ} {out : FOut}
    (h : simulate_fcfs_algorithm d idle0 u = .ok out) :
    ((tbOf d : ℚ) + (idleOf d idle0 : ℚ) ≠ 0) ∧
    (((tbOf d : ℚ) + (idleOf d idle0 : ℚ)) * u ≠ 0) ∧
    (((sortedOf d).length : ℚ) ≠ 0) ∧
    out.waiting = waitingOf d idle0 ∧
    out.tat = tatOf d idle0 ∧
    out.idleOut = idleOf d idle0 ∧
    out.n = (sortedOf d).length ∧
    out.cpu_util = (tbOf d : ℚ) / ((tbOf d : ℚ) + (idleOf d idle0 : ℚ)) ∧
    out.throughput = ((sortedOf d).length : ℚ) / (((tbOf d : ℚ) + (idleOf d idle0 : ℚ)) * u) ∧
    out.awt = ((waitingOf d idle0).sum : ℚ) * u / ((sortedOf d).length : ℚ) ∧
    out.att = ((tatOf d idle0).sum : ℚ) * u / ((sortedOf d).length : ℚ) ∧
    out.art = ((waitingOf d idle0).sum : ℚ) * u / ((sortedOf d).length : ℚ) ∧
    out.result = [("n", toString (sortedOf d).length),
                  ("throughput", fmtFixed 4 out.throughput),
                  ("cpu_util", fmtFixed 2 out.cpu_util),
                  ("awt", fmtFixed 4 out.awt),
                  ("att", fmtFixed 4 out.att),
                  ("art", fmtFixed 4 out.art)] := by
  simp only [simulate_fcfs_algorithm] at h
  split at h
  · exact absurd h (by simp)
  · rename_i c1 hc1
    obtain ⟨hb1, rfl⟩ := pyDiv_ok hc1
    split at h
    · exact absurd h (by simp)
    · rename_i c2 hc2
      obtain ⟨hb2, rfl⟩ := pyDiv_ok hc2
      split at h
      · exact absurd h (by simp)
      · rename_i c3 hc3
        obtain ⟨hb3, rfl⟩ := pyDiv_ok hc3
        split at h
        · exact absurd h (by simp)
        · rename_i c4 hc4
          obtain ⟨hb4, rfl⟩ := pyDiv_ok hc4
          injection h with h
          subst h
          exact ⟨hb1, hb2, hb3, rfl, rfl, rfl, rfl, rfl, rfl, rfl, rfl, rfl, rfl⟩

end FCFS

namespace PriorityNP

/-- The per-row turnaround list read back from the et cells by
calculate_turnaround_time: rows are visited by label i = 0..n-1. -/
def tatList (d : List Proc) (etF : List (Int × Int)) : List Int :=
  (List.range d.length).map
    (fun i => etCell etF (Int.ofNat i) - (d.getD i default).arrival_time)

/-- The per-row waiting list computed by calculate_waiting_time:
waiting[i] = tat[i] - burst[i]. -/
def waitingList (d : List Proc) (etF : List (Int × Int)) : List Int :=
  (List.range d.length).map
    (fun i => (tatList d etF).getD i 0 - (d.getD i default).burst_time)

/-- Total burst time of the input table. -/
def tbOfP (d : List Proc) : Int := (d.map (fun p => p.burst_time)).sum

/-- Inversion of a successful priority run: the loop finished with some et
cells and idle total, the denominators print_data and the helpers divide by
are nonzero, and every field of the result is the corresponding value. -/
theorem priority_ok_fields {d : List Proc} {u : ℚ} {out : POut}
    (h : simulate_priority_np_algorithm d u = .ok out) :
    runPr (d.length + 1) (initState d) = .ok (out.et, out.idleOut) ∧
    ((d.length : ℚ) ≠ 0) ∧
    ((tbOfP d : ℚ) + (out.idleOut : ℚ) ≠ 0) ∧
    (((tbOfP d : ℚ) + (out.idleOut : ℚ)) * u ≠ 0) ∧
    out.tat = tatList d out.et ∧
    out.waiting = waitingList d out.et ∧
    out.n = d.length ∧
    out.att = ((tatList d out.et).sum : ℚ) * u / (d.length : ℚ) ∧
    out.awt = ((waitingList d out.et).sum : ℚ) * u / (d.length : ℚ) ∧
    out.cpu_util = (tbOfP d : ℚ) / ((tbOfP d : ℚ) + (out.idleOut : ℚ)) ∧
    out.throughput = (d.length : ℚ) / (((tbOfP d : ℚ) + (out.idleOut : ℚ)) * u) ∧
    out.result = [("n", toString d.length),
                  ("throughput", fmtFixed 4 out.throughput),
                  ("cpu_util", fmtFixed 2 out.cpu_util),
                  ("awt", fmtFixed 4 out.awt),
                  ("att", fmtFixed 4 out.att),
                  ("art", fmtFixed 4 out.awt)] := by
  simp only [simulate_priority_np_algorithm] at h
  split at h
  · exact absurd h (by simp)
  · rename_i etF idleF hr
    split at h
    · exact absurd h (by simp)
    · rename_i c1 hc1
      obtain ⟨hb1, rfl⟩ := pyDiv_ok hc1
      split at h
      · exact absurd h (by simp)
      · rename_i c2 hc2
        obtain ⟨hb2, rfl⟩ := pyDiv_ok hc2
        split at h
        · exact absurd h (by simp)
        · rename_i c3 hc3
          obtain ⟨hb3, rfl⟩ := pyDiv_ok hc3
          split at h
          · exact absurd h (by simp)
          · rename_i c4 hc4
            obtain ⟨hb4, rfl⟩ := pyDiv_ok hc4
            injection h with h
            subst h
            exact ⟨hr, hb1, hb3, hb4, rfl, rfl, rfl, rfl, rfl, rfl, rfl, rfl⟩

end PriorityNP

theorem FCFS.waitLoop_length (s idle : Int) (bs as : List Int) :
    (FCFS.waitLoop s idle bs as).1.length = min bs.length as.length := by
  induction bs generalizing s idle as with
  | nil => simp [FCFS.waitLoop]
  | cons b bs ih =>
    cases as with
    | nil => simp [FCFS.waitLoop]
    | cons a as =>
      simp only [FCFS.waitLoop, List.length_cons]
      rw [ih]
      omega

theorem FCFS.calculate_waiting_time_length (burst arrival : List Int) (idle0 : Int)
    (h : burst.length = arrival.length) :
    (FCFS.calculate_waiting_time burst arrival idle0).1.length = burst.length := by
  match burst, arrival with
  | [], _ => simp [FCFS.calculate_waiting_time]
  | b :: bs, [] => simp at h
  | b0 :: bs, a0 :: as =>
    simp only [FCFS.calculate_waiting_time, List.length_cons]
    rw [FCFS.waitLoop_length]
    simp only [List.length_cons, Nat.succ.injEq] at h
    omega

theorem FCFS.sortedOf_length (d : List Proc) : (FCFS.sortedOf d).length = d.length := by
  rw [FCFS.sortedOf]
  exact (sort_values_perm (fun p => p.arrival_time) d).length_eq

theorem FCFS.burstOf_length (d : List Proc) : (FCFS.burstOf d).length = d.length := by
  simp [FCFS.burstOf, FCFS.sortedOf_length]

theorem FCFS.waitingOf_length (d : List Proc) (idle0 : Int) :
    (FCFS.waitingOf d idle0).length = d.length := by
  rw [FCFS.waitingOf, FCFS.calculate_waiting_time_length, FCFS.burstOf_length]
  simp [FCFS.burstOf, FCFS.arrivalOf]

theorem getD_zipWith_add (l1 l2 : List Int) (i : Nat) (h1 : i < l1.length)
    (h2 : i < l2.length) :
    (List.zipWith (fun b w => b + w) l1 l2).getD i 0 = l1.getD i 0 + l2.getD i 0 := by
  have hz : i < (List.zipWith (fun b w : Int => b + w) l1 l2).length := by
    rw [List.length_zipWith]; omega
  rw [List.getD_eq_getElem _ _ hz, List.getD_eq_getElem _ _ h1, List.getD_eq_getElem _ _ h2,
    List.getElem_zipWith]

theorem getD_map_range (f : Nat → Int) (n i : Nat) (h : i < n) :
    ((List.range n).map f).getD i 0 = f i := by
  have hm : i < ((List.range n).map f).length := by simp [h]
  rw [List.getD_eq_getElem _ _ hm, List.getElem_map, List.getElem_range]

theorem cast_sum_int (l : List Int) :
    ((l.sum : Int) : ℚ) = (l.map (fun x : Int => (x : ℚ))).sum := by
  induction l with
  | nil => simp
  | cons x xs ih => push_cast [ih]; simp

theorem sum_map_mul_const (l : List ℚ) (u : ℚ) :
    (l.map (fun x => x * u)).sum = l.sum * u := by
  induction l with
  | nil => simp
  | cons x xs ih => simp [ih, add_mul]

/-- The aggregate formula of the spec: cpu_utilization =
total_burst / (total_burst + idle_time). -/
def spec_cpu_utilization (total_burst idle : ℚ) : ℚ := total_burst / (total_burst + idle)

/-- The aggregate formula of the spec: throughput =
process_count / ((total_burst + idle_time) * time_unit). -/
def spec_throughput (count total_burst idle u : ℚ) : ℚ := count / ((total_burst + idle) * u)

/-- The aggregate formula of the spec: an average is the sum of the per-process
values scaled by the time unit, divided by the process count. -/
def spec_average (xs : List ℚ) (u count : ℚ) : ℚ := (xs.map (fun x => x * u)).sum / count

/-- m is an element of the ready queue that is at most every element under the
composite ordering key (priority, burst_time, arrival_time, process_id). -/
def PriorityNP.isMinOf (m : PriorityNP.PKey) (l : List PriorityNP.PKey) : Prop :=
  m ∈ l ∧ ∀ y ∈ l, PriorityNP.keyLe m y

instance (m : PriorityNP.PKey) (l : List PriorityNP.PKey) :
    Decidable (PriorityNP.isMinOf m l) := by
  unfold PriorityNP.isMinOf; infer_instance

/-- C1: the claim says the running CPU-free-at timestamp is initialized to the
first process's arrival time and each candidate start is the previous process's
start plus its burst. The source initializes service_time[0] to 0 instead, and
chains service_time from the candidate (unclamped) values. On sorted input
arrivals [5, 6] with bursts [2, 2], the source computes waiting [0, 0] with
idle_time 4, while the walk described by the claim (specFcfsWaiting) computes
waiting [0, 1] with idle_time 0: the first process cannot start at time 0,
five time units before it arrives. -/
theorem C1_fcfs_service_init_divergence :
    FCFS.calculate_waiting_time [2, 2] [5, 6] 0 = ([0, 0], 4) ∧
    FCFS.specFcfsWaiting [2, 2] [5, 6] = ([0, 1], 0) ∧
    FCFS.calculate_waiting_time [2, 2] [5, 6] 0 ≠ FCFS.specFcfsWaiting [2, 2] [5, 6] := by
  decide

/-- C2: single occupancy fails for the FCFS simulator. On arrivals [0, 10, 11]
with bursts [2, 2, 2] (already sorted, first arrival 0), the source computes
waiting [0, 0, 0] and turnaround [2, 2, 2], so with completion = arrival +
turnaround and start = completion - burst the second process occupies [10, 12)
and the third [11, 13): the intervals overlap, because the service-time chain
ignores the idle-clamp adjustment of the actual start times. -/
theorem C2_fcfs_single_occupancy_violated :
    (FCFS.simulate_fcfs_algorithm [⟨1, 0, 2, 0⟩, ⟨2, 10, 2, 0⟩, ⟨3, 11, 2, 0⟩] 0 1).map
        (fun o => (o.waiting, o.tat, o.idleOut)) = .ok ([0, 0, 0], [2, 2, 2], 15) ∧
    overlapping
      (startOf [0, 10, 11] [2, 2, 2] [2, 2, 2] 1)
      (completionOf [0, 10, 11] [2, 2, 2] 1)
      (startOf [0, 10, 11] [2, 2, 2] [2, 2, 2] 2)
      (completionOf [0, 10, 11] [2, 2, 2] 2) := by
  decide

/-- C3: the FCFS simulator never resets the module-level global idle_time, so
the accumulator leaks across invocations. Running FCFS on arrivals [0, 10]
with bursts [2, 2] from a fresh global (0) leaves the global at 8 and reports
CPU utilization 4/12 = 1/3; running the same input again, with the global now
8, reports utilization 4/20 = 1/5 instead of the isolated-run value 1/3.
(The priority simulator is not affected: simulate_priority_np_algorithm resets
idle_time to 0 in initState, taking no input from any prior run.) -/
theorem C3_fcfs_idle_time_leak :
    (FCFS.simulate_fcfs_algorithm [⟨1, 0, 2, 0⟩, ⟨2, 10, 2, 0⟩] 0 1).map
        (fun o => (o.idleOut, o.cpu_util)) = .ok (8, 1/3) ∧
    (FCFS.simulate_fcfs_algorithm [⟨1, 0, 2, 0⟩, ⟨2, 10, 2, 0⟩] 8 1).map
        (fun o => (o.idleOut, o.cpu_util)) = .ok (16, 1/5) ∧
    ((1 : ℚ)/3 ≠ 1/5) := by
  decide

/-- C4: on zero processes neither simulator fails with the dedicated
EmptyProcessSet error the claim demands: both reach an unguarded division and
raise ZeroDivisionError (FCFS at cpu_utilization, the priority simulator at
average_turnaround_time). -/
theorem C4_empty_input_zero_division :
    FCFS.simulate_fcfs_algorithm [] 0 1 = .error .zeroDivision ∧
    PriorityNP.simulate_priority_np_algorithm [] 1 = .error .zeroDivision ∧
    SimError.zeroDivision ≠ SimError.emptyProcessSet := by
  decide

/-- C5: whenever the ready queue is non-empty, the tuple PriorityQueue.get
removes is a member of the queue that is minimal under the ascending composite
key (priority, burst_time, arrival_time, process_id). In particular, in
Scenario C (two processes with equal priority both arriving at 0, bursts 5 and
1) the burst-1 process completes at time 1 and the burst-5 process at time 6,
whichever of the two listing orders is used. -/
theorem C5_priority_min_key_selection :
    (∀ (l : List PriorityNP.PKey) (m : PriorityNP.PKey) (rest : List PriorityNP.PKey),
        PriorityNP.popMin l = some (m, rest) → PriorityNP.isMinOf m l) ∧
    (PriorityNP.simulate_priority_np_algorithm [⟨1, 0, 5, 1⟩, ⟨2, 0, 1, 1⟩] 1).map
        (fun o => (PriorityNP.etCell o.et 0, PriorityNP.etCell o.et 1)) = .ok (6, 1) ∧
    (PriorityNP.simulate_priority_np_algorithm [⟨1, 0, 1, 1⟩, ⟨2, 0, 5, 1⟩] 1).map
        (fun o => (PriorityNP.etCell o.et 0, PriorityNP.etCell o.et 1)) = .ok (1, 6) := by
  refine ⟨?_, by decide, by decide⟩
  intro l m rest h
  obtain ⟨hm, _, hle⟩ := PriorityNP.popMin_spec h
  exact ⟨hm, hle⟩

/-- Witness for C5 at a concrete two-element ready queue: the popped tuple is
the burst-1 one and it is minimal. -/
theorem C5_priority_min_key_selection_witness :
    PriorityNP.popMin [⟨1, 5, 0, 1⟩, ⟨1, 1, 0, 2⟩] = some (⟨1, 1, 0, 2⟩, [⟨1, 5, 0, 1⟩]) ∧
    PriorityNP.isMinOf ⟨1, 1, 0, 2⟩ [⟨1, 5, 0, 1⟩, ⟨1, 1, 0, 2⟩] :=
  ⟨by decide, C5_priority_min_key_selection.1 _ _ [⟨1, 5, 0, 1⟩] (by decide)⟩

/-- C6: the admission step inserts into the ready queue exactly the pending
processes whose arrival time satisfies last_start_time < arrival_time ≤
current_time, and when a ready process is selected the loop records
last_start_time := the current_time at which it starts, before the clock is
advanced by its burst. -/
theorem C6_admission_window_and_decision_time :
    (∀ (ready : List PriorityNP.PKey) (normal : List (Int × Proc)) (cur last : Int),
        PriorityNP.insert_ready_queue ready normal cur last =
          ready ++ (normal.filter
            (fun kp => decide (last < kp.2.arrival_time ∧ kp.2.arrival_time ≤ cur))).map
              (fun kp => PriorityNP.keyOf kp.2)) ∧
    (∀ (s : PriorityNP.SimState) (e : PriorityNP.PKey) (rest : List PriorityNP.PKey)
        (normal' : List (Int × Proc)),
        PriorityNP.popMin (PriorityNP.insert_ready_queue s.ready_queue s.normal_queue
            s.current_time s.last_start_time) = some (e, rest) →
        PriorityNP.removeKey s.normal_queue (e.process_id - 1) = some normal' →
        PriorityNP.stepPr s = .ok (.inl
          { current_time := s.current_time + e.burst_time
            last_start_time := s.current_time
            idle_time := s.idle_time
            normal_queue := normal'
            ready_queue := rest
            et := PriorityNP.setEt s.et (e.process_id - 1) (s.current_time + e.burst_time) })) := by
  constructor
  · exact PriorityNP.insert_ready_queue_eq_filter
  · intro s e rest normal' h1 h2
    simp only [PriorityNP.stepPr, h1, h2]

/-- Witness for C6 at a concrete state: one pending process arriving at 0 is
admitted at time 0 and executed, with last_start_time set to its start 0 and
the clock advanced to 2. -/
theorem C6_admission_window_and_decision_time_witness :
    PriorityNP.stepPr (PriorityNP.initState [⟨1, 0, 2, 1⟩]) = .ok (.inl
      { current_time := 2
        last_start_time := 0
        idle_time := 0
        normal_queue := []
        ready_queue := []
        et := [(0, 2)] }) := by
  exact C6_admission_window_and_decision_time.2 (PriorityNP.initState [⟨1, 0, 2, 1⟩])
    ⟨1, 2, 0, 1⟩ [] [] (by decide) (by decide)

/-- C7: in every completed run of either simulator, every process's turnaround
time equals its waiting time plus its burst time. -/
theorem C7_conservation :
    (∀ (d : List Proc) (idle0 : Int) (u : ℚ) (out : FCFS.FOut) (i : Nat),
        FCFS.simulate_fcfs_algorithm d idle0 u = .ok out → i < d.length →
        out.tat.getD i 0 = out.waiting.getD i 0 + (FCFS.burstOf d).getD i 0) ∧
    (∀ (d : List Proc) (u : ℚ) (out : PriorityNP.POut) (i : Nat),
        PriorityNP.simulate_priority_np_algorithm d u = .ok out → i < d.length →
        out.tat.getD i 0 = out.waiting.getD i 0 + (d.getD i default).burst_time) := by
  constructor
  · intro d idle0 u out i h hi
    obtain ⟨_, _, _, hw, ht, _⟩ := FCFS.fcfs_ok_fields h
    rw [hw, ht, FCFS.tatOf, FCFS.calculate_turnaround_time, getD_zipWith_add]
    · omega
    · rw [FCFS.burstOf_length]; omega
    · rw [FCFS.waitingOf_length]; omega
  · intro d u out i h hi
    obtain ⟨_, _, _, _, ht, hw, _⟩ := PriorityNP.priority_ok_fields h
    rw [ht, hw, PriorityNP.waitingList, getD_map_range _ _ _ hi]
    omega

/-- Witness for C7 on concrete single-process runs of both simulators. -/
theorem C7_conservation_witness :
    FCFS.simulate_fcfs_algorithm [⟨1, 0, 2, 0⟩] 0 1 =
      .ok ⟨[0], [2], 0, 1, 1, 1/2, 0, 2, 0,
        [("n", "1"), ("throughput", "0.5000"), ("cpu_util", "1.00"),
         ("awt", "0.0000"), ("att", "2.0000"), ("art", "0.0000")]⟩ ∧
    (FCFS.FOut.tat ⟨[0], [2], 0, 1, 1, 1/2, 0, 2, 0,
        [("n", "1"), ("throughput", "0.5000"), ("cpu_util", "1.00"),
         ("awt", "0.0000"), ("att", "2.0000"), ("art", "0.0000")]⟩).getD 0 0 =
      (FCFS.FOut.waiting ⟨[0], [2], 0, 1, 1, 1/2, 0, 2, 0,
        [("n", "1"), ("throughput", "0.5000"), ("cpu_util", "1.00"),
         ("awt", "0.0000"), ("att", "2.0000"), ("art", "0.0000")]⟩).getD 0 0 +
        (FCFS.burstOf [⟨1, 0, 2, 0⟩]).getD 0 0 ∧
    PriorityNP.simulate_priority_np_algorithm [⟨1, 0, 2, 1⟩] 1 =
      .ok ⟨[(0, 2)], 0, [2], [0], 1, 2, 0, 1, 1/2,
        [("n", "1"), ("throughput", "0.5000"), ("cpu_util", "1.00"),
         ("awt", "0.0000"), ("att", "2.0000"), ("art", "0.0000")]⟩ ∧
    (PriorityNP.POut.tat ⟨[(0, 2)], 0, [2], [0], 1, 2, 0, 1, 1/2,
        [("n", "1"), ("throughput", "0.5000"), ("cpu_util", "1.00"),
         ("awt", "0.0000"), ("att", "2.0000"), ("art", "0.0000")]⟩).getD 0 0 =
      (PriorityNP.POut.waiting ⟨[(0, 2)], 0, [2], [0], 1, 2, 0, 1, 1/2,
        [("n", "1"), ("throughput", "0.5000"), ("cpu_util", "1.00"),
         ("awt", "0.0000"), ("att", "2.0000"), ("art", "0.0000")]⟩).getD 0 0 +
        ((([⟨1, 0, 2, 1⟩] : List Proc).getD 0 default).burst_time) :=
  ⟨by decide,
   C7_conservation.1 [⟨1, 0, 2, 0⟩] 0 1 _ 0 (by decide) (by decide),
   by decide,
   C7_conservation.2 [⟨1, 0, 2, 1⟩] 1 _ 0 (by decide) (by decide)⟩

/-- C8: both simulators compute the aggregate metrics by the shared formulas
of the spec: cpu_utilization = total_burst / (total_burst + idle_time),
throughput = n / ((total_burst + idle_time) * time_unit), the averages are the
scaled sums of the per-process lists divided by n, and the reported average
response time equals the average waiting time (for the priority simulator the
art entry of the returned record carries the awt value). -/
theorem C8_metric_formulas :
    (∀ (d : List Proc) (idle0 : Int) (u : ℚ) (out : FCFS.FOut),
        FCFS.simulate_fcfs_algorithm d idle0 u = .ok out →
        out.cpu_util = spec_cpu_utilization (FCFS.tbOf d : ℚ) (FCFS.idleOf d idle0 : ℚ) ∧
        out.throughput =
          spec_throughput (out.n : ℚ) (FCFS.tbOf d : ℚ) (FCFS.idleOf d idle0 : ℚ) u ∧
        out.awt = spec_average (out.waiting.map (fun w : Int => (w : ℚ))) u (out.n : ℚ) ∧
        out.att = spec_average (out.tat.map (fun t : Int => (t : ℚ))) u (out.n : ℚ) ∧
        out.art = out.awt) ∧
    (∀ (d : List Proc) (u : ℚ) (out : PriorityNP.POut),
        PriorityNP.simulate_priority_np_algorithm d u = .ok out →
        out.cpu_util = spec_cpu_utilization (PriorityNP.tbOfP d : ℚ) (out.idleOut : ℚ) ∧
        out.throughput =
          spec_throughput (out.n : ℚ) (PriorityNP.tbOfP d : ℚ) (out.idleOut : ℚ) u ∧
        out.awt = spec_average (out.waiting.map (fun w : Int => (w : ℚ))) u (out.n : ℚ) ∧
        out.att = spec_average (out.tat.map (fun t : Int => (t : ℚ))) u (out.n : ℚ) ∧
        out.result.lookup "art" = some (fmtFixed 4 out.awt)) := by
  constructor
  · intro d idle0 u out h
    obtain ⟨_, _, _, hw, ht, hidle, hn, hcpu, hthr, hawt, hatt, hart, _⟩ :=
      FCFS.fcfs_ok_fields h
    refine ⟨?_, ?_, ?_, ?_, ?_⟩
    · rw [hcpu, spec_cpu_utilization]
    · rw [hthr, hn, spec_throughput]
    · rw [hawt, hw, hn, spec_average, sum_map_mul_const, ← cast_sum_int]
    · rw [hatt, ht, hn, spec_average, sum_map_mul_const, ← cast_sum_int]
    · rw [hart, hawt]
  · intro d u out h
    obtain ⟨_, _, _, _, ht, hw, hn, hatt, hawt, hcpu, hthr, hres⟩ :=
      PriorityNP.priority_ok_fields h
    refine ⟨?_, ?_, ?_, ?_, ?_⟩
    · rw [hcpu, spec_cpu_utilization]
    · rw [hthr, hn, spec_throughput]
    · rw [hawt, hw, hn, spec_average, sum_map_mul_const, ← cast_sum_int]
    · rw [hatt, ht, hn, spec_average, sum_map_mul_const, ← cast_sum_int]
    · rw [hres]
      rfl

set_option maxHeartbeats 1600000 in
/-- Witness for C8 on concrete single-process runs of both simulators. -/
theorem C8_metric_formulas_witness :
    FCFS.simulate_fcfs_algorithm [⟨1, 0, 2, 0⟩] 0 1 =
      .ok ⟨[0], [2], 0, 1, 1, 1/2, 0, 2, 0,
        [("n", "1"), ("throughput", "0.5000"), ("cpu_util", "1.00"),
         ("awt", "0.0000"), ("att", "2.0000"), ("art", "0.0000")]⟩ ∧
    ((1 : ℚ) = spec_cpu_utilization (FCFS.tbOf [⟨1, 0, 2, 0⟩] : ℚ)
        (FCFS.idleOf [⟨1, 0, 2, 0⟩] 0 : ℚ) ∧
      (1/2 : ℚ) = spec_throughput ((1 : Nat) : ℚ) (FCFS.tbOf [⟨1, 0, 2, 0⟩] : ℚ)
        (FCFS.idleOf [⟨1, 0, 2, 0⟩] 0 : ℚ) 1 ∧
      (0 : ℚ) = spec_average (([0] : List Int).map (fun w : Int => (w : ℚ))) 1 ((1 : Nat) : ℚ) ∧
      (2 : ℚ) = spec_average (([2] : List Int).map (fun t : Int => (t : ℚ))) 1 ((1 : Nat) : ℚ) ∧
      (0 : ℚ) = (0 : ℚ)) ∧
    PriorityNP.simulate_priority_np_algorithm [⟨1, 0, 2, 1⟩] 1 =
      .ok ⟨[(0, 2)], 0, [2], [0], 1, 2, 0, 1, 1/2,
        [("n", "1"), ("throughput", "0.5000"), ("cpu_util", "1.00"),
         ("awt", "0.0000"), ("att", "2.0000"), ("art", "0.0000")]⟩ ∧
    ((1 : ℚ) = spec_cpu_utilization (PriorityNP.tbOfP [⟨1, 0, 2, 1⟩] : ℚ) ((0 : Int) : ℚ) ∧
      (1/2 : ℚ) = spec_throughput ((1 : Nat) : ℚ) (PriorityNP.tbOfP [⟨1, 0, 2, 1⟩] : ℚ)
        ((0 : Int) : ℚ) 1 ∧
      (0 : ℚ) = spec_average (([0] : List Int).map (fun w : Int => (w : ℚ))) 1 ((1 : Nat) : ℚ) ∧
      (2 : ℚ) = spec_average (([2] : List Int).map (fun t : Int => (t : ℚ))) 1 ((1 : Nat) : ℚ) ∧
      ([("n", "1"), ("throughput", "0.5000"), ("cpu_util", "1.00"),
        ("awt", "0.0000"), ("att", "2.0000"), ("art", "0.0000")] :
          List (String × String)).lookup "art" = some (fmtFixed 4 (0 : ℚ))) := by
  refine ⟨by decide, ?_, by decide, ?_⟩
  · exact C8_metric_formulas.1 [⟨1, 0, 2, 0⟩] 0 1
      ⟨[0], [2], 0, 1, 1, 1/2, 0, 2, 0,
        [("n", "1"), ("throughput", "0.5000"), ("cpu_util", "1.00"),
         ("awt", "0.0000"), ("att", "2.0000"), ("art", "0.0000")]⟩ (by decide)
  · exact C8_metric_formulas.2 [⟨1, 0, 2, 1⟩] 1
      ⟨[(0, 2)], 0, [2], [0], 1, 2, 0, 1, 1/2,
        [("n", "1"), ("throughput", "0.5000"), ("cpu_util", "1.00"),
         ("awt", "0.0000"), ("att", "2.0000"), ("art", "0.0000")]⟩ (by decide)

/-- C9 counterexample: the claim says every numeric field of the returned
record is exposed both as a precise numeric value and as a formatted string.
On the FCFS run with arrivals [0, 10] and bursts [2, 2] the precise CPU
utilization is 1/3, but the returned record contains only fixed-precision
strings; no entry of the record decodes to the precise value (the cpu_util
entry is "0.33" = 33/100), so the precise-numeric-exposure half of the claim
fails. -/
theorem C9_no_precise_numeric_exposure :
    (FCFS.simulate_fcfs_algorithm [⟨1, 0, 2, 0⟩, ⟨2, 10, 2, 0⟩] 0 1).map
        (fun o => (o.cpu_util,
          o.result.filter (fun kv => decide (decVal kv.2 = some o.cpu_util)))) =
      .ok (1/3, []) := by
  decide

/-- C9 amended: every numeric field of the record each simulator returns is
exposed only as a fixed-precision formatted string — the count as a decimal
string, throughput and the three averages with 4 decimal places, CPU
utilization with 2 — and no precise numeric values are included. -/
theorem C9_result_strings_only :
    (∀ (d : List Proc) (idle0 : Int) (u : ℚ) (out : FCFS.FOut),
        FCFS.simulate_fcfs_algorithm d idle0 u = .ok out →
        out.result = [("n", toString out.n),
                      ("throughput", fmtFixed 4 out.throughput),
                      ("cpu_util", fmtFixed 2 out.cpu_util),
                      ("awt", fmtFixed 4 out.awt),
                      ("att", fmtFixed 4 out.att),
                      ("art", fmtFixed 4 out.art)]) ∧
    (∀ (d : List Proc) (u : ℚ) (out : PriorityNP.POut),
        PriorityNP.simulate_priority_np_algorithm d u = .ok out →
        out.result = [("n", toString out.n),
                      ("throughput", fmtFixed 4 out.throughput),
                      ("cpu_util", fmtFixed 2 out.cpu_util),
                      ("awt", fmtFixed 4 out.awt),
                      ("att", fmtFixed 4 out.att),
                      ("art", fmtFixed 4 out.awt)]) := by
  constructor
  · intro d idle0 u out h
    obtain ⟨_, _, _, _, _, _, hn, _, _, _, _, _, hres⟩ := FCFS.fcfs_ok_fields h
    rw [hres, hn]
  · intro d u out h
    obtain ⟨_, _, _, _, _, _, hn, _, _, _, _, hres⟩ := PriorityNP.priority_ok_fields h
    rw [hres, hn]

set_option maxHeartbeats 1600000 in
/-- Witness for the amended C9 on concrete single-process runs. -/
theorem C9_result_strings_only_witness :
    FCFS.simulate_fcfs_algorithm [⟨1, 0, 2, 0⟩] 0 1 =
      .ok ⟨[0], [2], 0, 1, 1, 1/2, 0, 2, 0,
        [("n", "1"), ("throughput", "0.5000"), ("cpu_util", "1.00"),
         ("awt", "0.0000"), ("att", "2.0000"), ("art", "0.0000")]⟩ ∧
    ([("n", "1"), ("throughput", "0.5000"), ("cpu_util", "1.00"),
      ("awt", "0.0000"), ("att", "2.0000"), ("art", "0.0000")] :
        List (String × String)) =
      [("n", toString (1 : Nat)),
       ("throughput", fmtFixed 4 (1/2 : ℚ)),
       ("cpu_util", fmtFixed 2 (1 : ℚ)),
       ("awt", fmtFixed 4 (0 : ℚ)),
       ("att", fmtFixed 4 (2 : ℚ)),
       ("art", fmtFixed 4 (0 : ℚ))] := by
  refine ⟨by decide, ?_⟩
  exact C9_result_strings_only.1 [⟨1, 0, 2, 0⟩] 0 1
    ⟨[0], [2], 0, 1, 1, 1/2, 0, 2, 0,
      [("n", "1"), ("throughput", "0.5000"), ("cpu_util", "1.00"),
       ("awt", "0.0000"), ("att", "2.0000"), ("art", "0.0000")]⟩ (by decide)

namespace PriorityNP

theorem popMin_eq_none {l : List PKey} : popMin l = none ↔ l = [] := by
  cases l <;> simp [popMin]

theorem mem_insert_ready_queue {e : PKey} {ready : List PKey}
    {normal : List (Int × Proc)} {cur last : Int} :
    e ∈ insert_ready_queue ready normal cur last ↔
      e ∈ ready ∨ ∃ kp, kp ∈ normal ∧
        (last < kp.2.arrival_time ∧ kp.2.arrival_time ≤ cur) ∧ e = keyOf kp.2 := by
  rw [insert_ready_queue_eq_filter]
  simp only [List.mem_append, List.mem_map, List.mem_filter, decide_eq_true_eq]
  constructor
  · rintro (h | ⟨kp, ⟨hkp, hwin⟩, rfl⟩)
    · exact Or.inl h
    · exact Or.inr ⟨kp, hkp, hwin, rfl⟩
  · rintro (h | ⟨kp, hkp, hwin, rfl⟩)
    · exact Or.inl h
    · exact Or.inr ⟨kp, ⟨hkp, hwin⟩, rfl⟩

theorem assoc_eq_of_keys_nodup {l : List (Int × Proc)}
    (h : (l.map Prod.fst).Nodup) {a b : Int × Proc}
    (ha : a ∈ l) (hb : b ∈ l) (hk : a.1 = b.1) : a = b := by
  induction l with
  | nil => simp at ha
  | cons x xs ih =>
    simp only [List.map_cons, List.nodup_cons] at h
    rcases List.mem_cons.mp ha with rfl | ha2
    · rcases List.mem_cons.mp hb with rfl | hb2
      · rfl
      · exact absurd (hk ▸ List.mem_map_of_mem Prod.fst hb2) h.1
    · rcases List.mem_cons.mp hb with rfl | hb2
      · exact absurd (hk ▸ List.mem_map_of_mem Prod.fst ha2) h.1
      · exact ih h.2 ha2 hb2

theorem mem_keys_filter_ne {l : List (Int × Proc)} {k k' : Int} :
    k' ∈ (l.filter (fun kp => kp.1 != k)).map Prod.fst ↔
      k' ∈ l.map Prod.fst ∧ k' ≠ k := by
  simp only [List.mem_map, List.mem_filter, bne_iff_ne]
  constructor
  · rintro ⟨kp, ⟨hkp, hne⟩, rfl⟩
    exact ⟨⟨kp, hkp, rfl⟩, hne⟩
  · rintro ⟨⟨kp, hkp, rfl⟩, hne⟩
    exact ⟨kp, ⟨hkp, hne⟩, rfl⟩

theorem mem_filter_ne_of_mem {l : List (Int × Proc)} {k : Int} {kp : Int × Proc}
    (h : kp ∈ l) (hne : kp.1 ≠ k) : kp ∈ l.filter (fun kp => kp.1 != k) :=
  List.mem_filter.mpr ⟨h, by simpa [bne_iff_ne] using hne⟩

theorem length_filter_ne_of_mem {l : List (Int × Proc)} {k : Int}
    (hnd : (l.map Prod.fst).Nodup) (hk : k ∈ l.map Prod.fst) :
    (l.filter (fun kp => kp.1 != k)).length + 1 = l.length := by
  induction l with
  | nil => simp at hk
  | cons x xs ih =>
    simp only [List.map_cons, List.nodup_cons] at hnd
    by_cases hx : x.1 = k
    · have hxs : xs.filter (fun kp => kp.1 != k) = xs := by
        apply List.filter_eq_self.mpr
        intro a ha
        simp only [bne_iff_ne]
        intro hak
        exact hnd.1 (hx ▸ hak ▸ List.mem_map_of_mem Prod.fst ha)
      simp [List.filter_cons, hx, hxs]
    · have hk2 : k ∈ xs.map Prod.fst := by
        rcases List.mem_map.mp hk with ⟨kp, hkp, rfl⟩
        rcases List.mem_cons.mp hkp with rfl | h2
        · exact absurd rfl hx
        · exact List.mem_map_of_mem Prod.fst h2
      have hxb : (x.1 != k) = true := by simp [bne_iff_ne, hx]
      simp only [List.filter_cons, hxb, if_true, List.length_cons]
      rw [← ih hnd.2 hk2]

theorem mem_keys_setEt (et : List (Int × Int)) (k v k' : Int) :
    k' ∈ (setEt et k v).map Prod.fst ↔
      (k' ∈ et.map Prod.fst ∧ k' ≠ k) ∨ k' = k := by
  simp only [setEt, List.map_append, List.mem_append, List.mem_map, List.mem_filter,
    bne_iff_ne, List.map_cons, List.map_nil, List.mem_singleton]
  constructor
  · rintro (⟨kv, ⟨hkv, hne⟩, rfl⟩ | h)
    · exact Or.inl ⟨⟨kv, hkv, rfl⟩, hne⟩
    · exact Or.inr h
  · rintro (⟨⟨kv, hkv, rfl⟩, hne⟩ | h)
    · exact Or.inl ⟨kv, ⟨hkv, hne⟩, rfl⟩
    · exact Or.inr h

theorem nodup_keys_setEt {et : List (Int × Int)} (k v : Int)
    (h : (et.map Prod.fst).Nodup) : ((setEt et k v).map Prod.fst).Nodup := by
  simp only [setEt, List.map_append, List.map_cons, List.map_nil]
  apply List.Nodup.append
  · exact h.sublist (List.Sublist.map Prod.fst (List.filter_sublist et))
  · simp
  · intro a ha hb
    simp only [List.mem_singleton] at hb
    rcases List.mem_map.mp ha with ⟨kv, hkv, hkv1⟩
    have h2 := (List.mem_filter.mp hkv).2
    rw [bne_iff_ne] at h2
    exact h2 (hkv1.trans hb)

end PriorityNP

namespace PriorityNP

/-- Loop invariant for the priority scheduling loop, relative to the initial
arrival-sorted labelled row list R. -/
structure Inv (R : List (Int × Proc)) (s : SimState) : Prop where
  sub : s.normal_queue.Sublist R
  lastle : s.last_start_time ≤ s.current_time
  ready_shape : ∀ e ∈ s.ready_queue, ∃ kp, kp ∈ s.normal_queue ∧ e = keyOf kp.2
  ready_nodup : (s.ready_queue.map (fun e => e.process_id)).Nodup
  ready_arr : ∀ e ∈ s.ready_queue, e.arrival_time ≤ s.last_start_time
  et_keys : ∀ k : Int, k ∈ s.et.map Prod.fst ↔
    (k ∈ R.map Prod.fst ∧ k ∉ s.normal_queue.map Prod.fst)
  et_nodup : (s.et.map Prod.fst).Nodup

theorem stepPr_preserve {R : List (Int × Proc)} {s : SimState}
    (hRnd : (R.map Prod.fst).Nodup)
    (hRpid : ∀ kp ∈ R, kp.2.process_id = kp.1 + 1)
    (hRburst : ∀ kp ∈ R, 0 ≤ kp.2.burst_time)
    (hInv : Inv R s) :
    (s.normal_queue = [] ∧ stepPr s = .ok (.inr (s.et, s.idle_time))) ∨
    (∃ s', stepPr s = .ok (.inl s') ∧ Inv R s' ∧
      s'.normal_queue.length + 1 = s.normal_queue.length) := by
  obtain ⟨cur, last, idle, normal, ready, et⟩ := s
  obtain ⟨hsub, hlastle, hshape, hrnodup, harr, hetk, hetnd⟩ := hInv
  simp only at hsub hlastle hshape hrnodup harr hetk hetnd
  have hNnd : (normal.map Prod.fst).Nodup := (hsub.map Prod.fst).nodup hRnd
  have hNlist : normal.Nodup := hNnd.of_map
  have hr1_mem : ∀ e ∈ insert_ready_queue ready normal cur last,
      ∃ kp, kp ∈ normal ∧ e = keyOf kp.2 := by
    intro e he
    rcases mem_insert_ready_queue.mp he with h | ⟨kp, hkp, _, rfl⟩
    · exact hshape e h
    · exact ⟨kp, hkp, rfl⟩
  have hr1_arr : ∀ e ∈ insert_ready_queue ready normal cur last,
      e.arrival_time ≤ cur := by
    intro e he
    rcases mem_insert_ready_queue.mp he with h | ⟨kp, hkp, hwin, rfl⟩
    · exact le_trans (harr e h) hlastle
    · exact hwin.2
  have hr1_nodup : ((insert_ready_queue ready normal cur last).map
      (fun e => e.process_id)).Nodup := by
    rw [insert_ready_queue_eq_filter, List.map_append]
    apply List.Nodup.append
    · exact hrnodup
    · rw [List.map_map]
      apply List.Nodup.map_on
      · intro x hx y hy hxy
        have hx' : x ∈ normal := (List.mem_filter.mp hx).1
        have hy' : y ∈ normal := (List.mem_filter.mp hy).1
        have hpx : x.2.process_id = x.1 + 1 := hRpid x (hsub.subset hx')
        have hpy : y.2.process_id = y.1 + 1 := hRpid y (hsub.subset hy')
        apply assoc_eq_of_keys_nodup hNnd hx' hy'
        simp only [Function.comp, keyOf] at hxy
        omega
      · exact hNlist.filter _
    · intro a ha hb
      rcases List.mem_map.mp ha with ⟨e, he, rfl⟩
      rw [List.map_map] at hb
      rcases List.mem_map.mp hb with ⟨kp', hkp', hpid'⟩
      have hkp'n : kp' ∈ normal := (List.mem_filter.mp hkp').1
      have hwin' : last < kp'.2.arrival_time := by
        have h2 := (List.mem_filter.mp hkp').2
        simp only [decide_eq_true_eq] at h2
        exact h2.1
      obtain ⟨kp, hkpn, rfl⟩ := hshape e he
      have h1 : kp.2.process_id = kp.1 + 1 := hRpid kp (hsub.subset hkpn)
      have h2 : kp'.2.process_id = kp'.1 + 1 := hRpid kp' (hsub.subset hkp'n)
      have hkk : kp = kp' := by
        apply assoc_eq_of_keys_nodup hNnd hkpn hkp'n
        simp only [Function.comp, keyOf] at hpid'
        omega
      have harr2 := harr (keyOf kp.2) he
      simp only [keyOf] at harr2
      rw [hkk] at harr2
      omega
  rcases hp : popMin (insert_ready_queue ready normal cur last) with _ | ⟨e, rest⟩
  · -- ready queue empty after admission
    have hr1nil := popMin_eq_none.mp hp
    cases normal with
    | nil =>
      left
      refine ⟨rfl, ?_⟩
      simp only [stepPr, hp]
    | cons hd tail =>
      obtain ⟨fk, fp⟩ := hd
      right
      have hhd : (fk, fp) ∈ (fk, fp) :: tail := List.mem_cons_self _ _
      have hhdR : (fk, fp) ∈ R := hsub.subset hhd
      have hpid : fp.process_id - 1 = fk := by
        have h3 := hRpid _ hhdR
        simp only at h3
        omega
      have hkmem : fp.process_id - 1 ∈ ((fk, fp) :: tail).map Prod.fst := by
        rw [hpid]
        exact List.mem_map_of_mem Prod.fst hhd
      have hrem := removeKey_isSome_of_mem hkmem
      have hburst : 0 ≤ fp.burst_time := hRburst _ hhdR
      refine ⟨_, by simp only [stepPr, hp, hrem]; rfl, ?_, ?_⟩
      · constructor
        · exact (List.filter_sublist _).trans hsub
        · simp only
          split <;> omega
        · rw [hr1nil]
          intro e he
          simp at he
        · rw [hr1nil]
          simp
        · rw [hr1nil]
          intro e he
          simp at he
        · intro k'
          simp only [mem_keys_setEt]
          by_cases hkk : k' = fp.process_id - 1
          · subst hkk
            simp only [or_true, true_iff]
            constructor
            · rw [hpid]
              exact List.mem_map_of_mem Prod.fst hhdR
            · rw [mem_keys_filter_ne]
              simp
          · simp only [hkk, or_false, and_true, ne_eq, not_false_eq_true]
            rw [hetk k', mem_keys_filter_ne]
            simp [hkk]
        · exact nodup_keys_setEt _ _ hetnd
      · simp only
        exact length_filter_ne_of_mem hNnd hkmem
  · -- SELECT
    right
    obtain ⟨hemem, hresteq, hemin⟩ := popMin_spec hp
    obtain ⟨kp, hkpn, hekp⟩ := hr1_mem e hemem
    have hkpR : kp ∈ R := hsub.subset hkpn
    have hpidkp : kp.2.process_id = kp.1 + 1 := hRpid kp hkpR
    have hpid : e.process_id - 1 = kp.1 := by
      rw [hekp]
      simp only [keyOf]
      omega
    have hkmem : e.process_id - 1 ∈ normal.map Prod.fst := by
      rw [hpid]
      exact List.mem_map_of_mem Prod.fst hkpn
    have hrem := removeKey_isSome_of_mem hkmem
    have hburst : 0 ≤ e.burst_time := by
      rw [hekp]
      exact hRburst kp hkpR
    have hperm : (insert_ready_queue ready normal cur last).Perm (e :: rest) :=
      popMin_perm hp
    have hpermpid := hperm.map (fun e => e.process_id)
    have hconsnd : ((e :: rest).map (fun e => e.process_id)).Nodup :=
      hpermpid.nodup_iff.mp hr1_nodup
    simp only [List.map_cons, List.nodup_cons] at hconsnd
    refine ⟨_, by simp only [stepPr, hp, hrem]; rfl, ?_, ?_⟩
    · constructor
      · exact (List.filter_sublist _).trans hsub
      · simp only
        omega
      · intro e' he'
        have he'r1 : e' ∈ insert_ready_queue ready normal cur last := by
          rw [hresteq] at he'
          exact List.mem_of_mem_erase he'
        obtain ⟨kp', hkp'n, he'kp'⟩ := hr1_mem e' he'r1
        refine ⟨kp', ?_, he'kp'⟩
        apply mem_filter_ne_of_mem hkp'n
        intro hkey
        have hpid' : kp'.2.process_id = kp'.1 + 1 := hRpid kp' (hsub.subset hkp'n)
        have hkpeq : kp' = kp := by
          apply assoc_eq_of_keys_nodup hNnd hkp'n hkpn
          omega
        have he'e : e' = e := by rw [he'kp', hkpeq, ← hekp]
        subst he'e
        have : e'.process_id ∈ rest.map (fun e => e.process_id) :=
          List.mem_map_of_mem _ he'
        exact hconsnd.1 this
      · exact hconsnd.2
      · intro e' he'
        have he'r1 : e' ∈ insert_ready_queue ready normal cur last := by
          rw [hresteq] at he'
          exact List.mem_of_mem_erase he'
        simp only
        exact hr1_arr e' he'r1
      · intro k'
        simp only [mem_keys_setEt]
        by_cases hkk : k' = e.process_id - 1
        · subst hkk
          simp only [or_true, true_iff]
          constructor
          · rw [hpid]
            exact List.mem_map_of_mem Prod.fst hkpR
          · rw [mem_keys_filter_ne]
            simp
        · simp only [hkk, or_false, and_true, ne_eq, not_false_eq_true]
          rw [hetk k', mem_keys_filter_ne]
          simp [hkk]
      · exact nodup_keys_setEt _ _ hetnd
    · simp only
      exact length_filter_ne_of_mem hNnd hkmem

theorem runPr_ok {R : List (Int × Proc)}
    (hRnd : (R.map Prod.fst).Nodup)
    (hRpid : ∀ kp ∈ R, kp.2.process_id = kp.1 + 1)
    (hRburst : ∀ kp ∈ R, 0 ≤ kp.2.burst_time) :
    ∀ (fuel : Nat) (s : SimState), Inv R s → s.normal_queue.length < fuel →
      ∃ etF idleF, runPr fuel s = .ok (etF, idleF) ∧
        (∀ k, k ∈ etF.map Prod.fst ↔ k ∈ R.map Prod.fst) ∧
        (etF.map Prod.fst).Nodup := by
  intro fuel
  induction fuel with
  | zero => intro s _ h; omega
  | succ f ih =>
    intro s hInv hlen
    rcases stepPr_preserve hRnd hRpid hRburst hInv with
      ⟨hnil, hstep⟩ | ⟨s', hstep, hInv', hlen'⟩
    · refine ⟨s.et, s.idle_time, ?_, ?_, hInv.et_nodup⟩
      · simp only [runPr, hstep]
      · intro k
        rw [hInv.et_keys k, hnil]
        simp
    · have hlen2 : s'.normal_queue.length < f := by omega
      obtain ⟨etF, idleF, hrun, hcov, hnd⟩ := ih s' hInv' hlen2
      exact ⟨etF, idleF, by simp only [runPr, hstep, hrun], hcov, hnd⟩

theorem enumFrom_mem_ge {i : Int} {d : List Proc} {kp : Int × Proc}
    (h : kp ∈ enumFrom i d) : i ≤ kp.1 := by
  induction d generalizing i with
  | nil => simp [enumFrom] at h
  | cons p rest ih =>
    rcases List.mem_cons.mp h with rfl | h2
    · simp
    · have := ih h2
      omega

theorem enumFrom_keys_nodup (i : Int) (d : List Proc) :
    ((enumFrom i d).map Prod.fst).Nodup := by
  induction d generalizing i with
  | nil => simp [enumFrom]
  | cons p rest ih =>
    simp only [enumFrom, List.map_cons, List.nodup_cons]
    refine ⟨?_, ih (i + 1)⟩
    intro hmem
    rcases List.mem_map.mp hmem with ⟨kp, hkp, hk⟩
    have := enumFrom_mem_ge hkp
    omega

theorem enumFrom_snd_mem {i : Int} {d : List Proc} {kp : Int × Proc}
    (h : kp ∈ enumFrom i d) : kp.2 ∈ d := by
  induction d generalizing i with
  | nil => simp [enumFrom] at h
  | cons p rest ih =>
    rcases List.mem_cons.mp h with rfl | h2
    · simp
    · exact List.mem_cons.mpr (Or.inr (ih h2))

theorem enumFrom_length (i : Int) (d : List Proc) :
    (enumFrom i d).length = d.length := by
  induction d generalizing i with
  | nil => simp [enumFrom]
  | cons p rest ih => simp [enumFrom, ih]

/-- Under the precondition that every row label equals its process_id - 1 (and
bursts are nonnegative), the scheduling loop terminates without KeyError and
writes a completion cell for every row exactly once. -/
theorem schedule_all_of_precondition (d : List Proc)
    (hpid : ∀ kp ∈ to_dict d, kp.2.process_id = kp.1 + 1)
    (hburst : ∀ p ∈ d, 0 ≤ p.burst_time) :
    ∃ etF idleF, runPr (d.length + 1) (initState d) = .ok (etF, idleF) ∧
      (∀ k, k ∈ etF.map Prod.fst ↔ k ∈ (to_dict d).map Prod.fst) ∧
      (etF.map Prod.fst).Nodup := by
  have hperm : (sort_values (fun kp => kp.2.arrival_time) (to_dict d)).Perm (to_dict d) :=
    sort_values_perm _ _
  have hkeysperm := hperm.map Prod.fst
  have hRnd : ((sort_values (fun kp => kp.2.arrival_time) (to_dict d)).map Prod.fst).Nodup :=
    hkeysperm.nodup_iff.mpr (enumFrom_keys_nodup 0 d)
  have hRpid : ∀ kp ∈ sort_values (fun kp => kp.2.arrival_time) (to_dict d),
      kp.2.process_id = kp.1 + 1 := by
    intro kp hkp
    exact hpid kp (hperm.mem_iff.mp hkp)
  have hRburst : ∀ kp ∈ sort_values (fun kp => kp.2.arrival_time) (to_dict d),
      0 ≤ kp.2.burst_time := by
    intro kp hkp
    exact hburst kp.2 (enumFrom_snd_mem (hperm.mem_iff.mp hkp))
  have hInv0 : Inv (sort_values (fun kp => kp.2.arrival_time) (to_dict d)) (initState d) := by
    constructor
    · exact List.Sublist.refl _
    · norm_num [initState]
    · intro e he
      simp [initState] at he
    · simp [initState]
    · intro e he
      simp [initState] at he
    · intro k
      simp [initState]
    · simp [initState]
  have hlen : (initState d).normal_queue.length < d.length + 1 := by
    simp only [initState]
    rw [hperm.length_eq, to_dict, enumFrom_length]
    omega
  obtain ⟨etF, idleF, hrun, hcov, hnd⟩ :=
    runPr_ok hRnd hRpid hRburst (d.length + 1) (initState d) hInv0 hlen
  refine ⟨etF, idleF, hrun, ?_, hnd⟩
  intro k
  rw [hcov k]
  exact ⟨fun h => (hkeysperm.mem_iff).mp h, fun h => (hkeysperm.mem_iff).mpr h⟩

end PriorityNP

/-- C10: the priority simulator removes the selected process from the pending
dict and records its completion using the key process_id - 1 (the row label it
expects). If the selected process's own row label r differs from that key, the
deletion either raises KeyError (key absent from the dict) or removes and
attributes the completion to a different row, since row r's own entry is not
the one removed; correct scheduling of every process exactly once holds under
the precondition that every row label equals process_id - 1. On the concrete
table whose row 0 holds id 2 (burst 1) and row 1 holds id 1 (burst 5), the
burst-1 process runs during [0, 1) but row 0 receives et 6 while row 1
receives et 1: the completion times are attributed to the wrong processes. -/
theorem C10_pid_row_precondition :
    (∀ (normal : List (Int × Proc)) (k r : Int) (p : Proc) (nq' : List (Int × Proc)),
        k ≠ r → (r, p) ∈ normal → PriorityNP.removeKey normal k = some nq' →
        (r, p) ∈ nq') ∧
    (∀ (normal : List (Int × Proc)) (k : Int),
        k ∉ normal.map Prod.fst → PriorityNP.removeKey normal k = none) ∧
    (∀ d : List Proc,
        (∀ kp ∈ PriorityNP.to_dict d, kp.2.process_id = kp.1 + 1) →
        (∀ p ∈ d, 0 ≤ p.burst_time) →
        ∃ etF idleF,
          PriorityNP.runPr (d.length + 1) (PriorityNP.initState d) = .ok (etF, idleF) ∧
          (∀ k, k ∈ etF.map Prod.fst ↔ k ∈ (PriorityNP.to_dict d).map Prod.fst) ∧
          (etF.map Prod.fst).Nodup) ∧
    (PriorityNP.simulate_priority_np_algorithm [⟨2, 0, 1, 1⟩, ⟨1, 0, 5, 1⟩] 1).map
        (fun o => (PriorityNP.etCell o.et 0, PriorityNP.etCell o.et 1)) = .ok (6, 1) := by
  refine ⟨?_, ?_, PriorityNP.schedule_all_of_precondition, by decide⟩
  · intro normal k r p nq' hne hmem hrem
    rw [PriorityNP.removeKey_eq_some hrem]
    exact PriorityNP.mem_filter_ne_of_mem hmem hne.symm
  · intro normal k hk
    unfold PriorityNP.removeKey
    rw [if_neg]
    intro hany
    rcases List.any_eq_true.mp hany with ⟨kp, hkp, hkpk⟩
    exact hk (beq_iff_eq.mp hkpk ▸ List.mem_map_of_mem Prod.fst hkp)

/-- Witness for C10: the wrong-key deletion leaves the selected process's own
row in place at a concrete pending dict, and deletion with an absent key fails. -/
theorem C10_pid_row_precondition_witness :
    ((0 : Int), (⟨1, 0, 2, 1⟩ : Proc)) ∈
      ([((0 : Int), (⟨1, 0, 2, 1⟩ : Proc))] : List (Int × Proc)) ∧
    PriorityNP.removeKey [((5 : Int), (⟨1, 0, 2, 1⟩ : Proc))] 0 = none :=
  ⟨C10_pid_row_precondition.1 [(0, ⟨1, 0, 2, 1⟩), (1, ⟨2, 0, 3, 1⟩)] 1 0 ⟨1, 0, 2, 1⟩
      [(0, ⟨1, 0, 2, 1⟩)] (by decide) (by decide) (by decide),
   C10_pid_row_precondition.2.1 [(5, ⟨1, 0, 2, 1⟩)] 0 (by decide)⟩

